import Mathlib

/-
Verification of the multi-source watchlist screening engine
(src/src/services/validation/watchlist_validator.py).

The engine is embedded shallowly:
- Python strings are `List Char` (ASCII fragment; the regexes `\s` and
  `[^a-z\s\-]` and `str.lower` are modeled on their ASCII behaviour).
- Python floats carrying the per-source confidences (0.5 .. 0.95) are
  modeled as `ℚ`; the only operation applied to them is `max`, on which
  the float and rational semantics agree for these values.
- The outcome of `_validate_against_source` for one source is
  `Option SourceCheckResult`: `none` is the "source errored / timed out /
  returned no usable answer" case (the method catches every exception and
  returns Python `None`).  The network is abstracted as an environment
  `env : String → String → Option SourceCheckResult` mapping a source key
  and a queried name to that outcome; it is fixed during one call, which
  models the determinism assumption of the spec.
- `datetime.now().replace(hour := h)` validates its argument: Python
  raises `ValueError` when `h` is outside `0..23`.  `replaceHour` returns
  `Except` accordingly.
- The SQLite cache table keyed by `name_hash` is a function
  `List Char → Option CacheRow`; `INSERT OR REPLACE` is a pointwise
  function update, the `expires_at > datetime('now')` comparison is a
  strict order on absolute minutes.
- SHA-256 hex hashing of the normalized name (`_create_name_hash`) is
  modeled as the normalized name itself: every claim proved here depends
  only on the key being a deterministic function of the normalized name,
  never on the digest's shape or on collision behaviour.
-/

/-- Python `\s` on ASCII: space, tab, newline, vertical tab, form feed,
carriage return (code points 32 and 9..13). -/
def isWS (c : Char) : Bool :=
  decide (c.toNat = 32 ∨ (9 ≤ c.toNat ∧ c.toNat ≤ 13))

/-- Python `str.lower` on the ASCII fragment: maps `A..Z` to `a..z`,
leaves everything else unchanged. -/
def lowerChar (c : Char) : Char :=
  if 65 ≤ c.toNat ∧ c.toNat ≤ 90 then Char.ofNat (c.toNat + 32) else c

/-- Character class kept by the second regex of `_normalize_name`,
`re.sub(r'[^a-z\s\-]', '', ·)`: lowercase letters, whitespace, hyphen. -/
def isAllowed (c : Char) : Bool :=
  (decide (97 ≤ c.toNat ∧ c.toNat ≤ 122)) || isWS c || decide (c.toNat = 45)

/-- Python `str.strip()`: drop leading and trailing whitespace. -/
def pyStrip (l : List Char) : List Char :=
  ((l.dropWhile isWS).reverse.dropWhile isWS).reverse

/-- Python `re.sub(r'\s+', ' ', ·)`: replace every maximal run of
whitespace by a single space.  (The single space is emitted at the last
character of the run, which yields the same string.) -/
def collapseWS : List Char → List Char
  | [] => []
  | [c] => if isWS c then [' '] else [c]
  | c :: d :: rest =>
    if isWS c then
      if isWS d then collapseWS (d :: rest)
      else ' ' :: collapseWS (d :: rest)
    else c :: collapseWS (d :: rest)

/-- WatchlistValidator._normalize_name:
`normalized = re.sub(r'\s+', ' ', name.strip().lower())` followed by
`normalized = re.sub(r'[^a-z\s\-]', '', normalized)`.
(`strip` commutes with `lower` on whitespace, so stripping before
lowercasing is the source's order.) -/
def normalizeName (l : List Char) : List Char :=
  (collapseWS ((pyStrip l).map lowerChar)).filter isAllowed

/-- Python `str.split()` with no separator: split on runs of whitespace,
producing no empty tokens.  `acc` is the current token, reversed. -/
def splitWSAux : List Char → List Char → List (List Char)
  | [], acc => if acc = [] then [] else [acc.reverse]
  | c :: cs, acc =>
    if isWS c then
      if acc = [] then splitWSAux cs [] else acc.reverse :: splitWSAux cs []
    else splitWSAux cs (c :: acc)

def splitWS (l : List Char) : List (List Char) :=
  splitWSAux l []

/-- Python `set(normalized.split())`. -/
def tokenSet (l : List Char) : Finset (List Char) :=
  (splitWS l).toFinset

/-- WatchlistValidator._name_matches: exact match of normalized forms,
else token-set overlap of size at least 2, else substring containment in
either direction (Python `in` on strings is contiguous-substring). -/
def nameMatches (input watch : List Char) : Bool :=
  let i := normalizeName input
  let w := normalizeName watch
  if i = w then true
  else if 2 ≤ (tokenSet i ∩ tokenSet w).card then true
  else if i <:+: w ∨ w <:+: i then true
  else false

/-- One source's parsed verdict dict (`'is_blocked'`, `'confidence'`,
`'reasons'`); `source_data` is dropped as no claim mentions it.  The
whole dict being absent is `Option.none` at the use sites. -/
structure SourceCheckResult where
  is_blocked : Bool
  confidence : ℚ
  reasons : List String
deriving DecidableEq

/-- Python `datetime` reduced to the fields the engine touches. -/
structure PyDateTime where
  day : Nat
  hour : Nat
  minute : Nat
deriving DecidableEq

/-- Absolute minute count, the order used for timestamp comparison. -/
def PyDateTime.abs (t : PyDateTime) : Nat :=
  (t.day * 24 + t.hour) * 60 + t.minute

/-- Python `datetime.replace(hour := h)`: raises `ValueError` unless
`0 ≤ h ≤ 23`. -/
def replaceHour (d : PyDateTime) (h : Nat) : Except String PyDateTime :=
  if h ≤ 23 then Except.ok { d with hour := h }
  else Except.error "hour must be in 0..23"

/-- The dataclass WatchlistResult.  `raw_data` is the Python dict in
insertion order. -/
structure WatchlistResult where
  name : String
  is_blocked : Bool
  sources : List String
  confidence : ℚ
  reasons : List String
  last_updated : PyDateTime
  raw_data : List (String × Option SourceCheckResult)
deriving DecidableEq

/-- A row of the `watchlist_cache` table. -/
structure CacheRow where
  full_name : String
  is_blocked : Bool
  sources : List String
  confidence : ℚ
  reasons : List String
  raw_data : List (String × Option SourceCheckResult)
  created_at : PyDateTime
  expires_at : PyDateTime
deriving DecidableEq

/-- Line 47 of the source: `self.cache_duration_hours = 24`. -/
def cache_duration_hours : Nat := 24

/-- SHA-256 hex digest of the normalized name (`_create_name_hash`),
modeled as the normalized name itself; see the header comment. -/
def nameHash (n : String) : List Char :=
  normalizeName n.data

/-- Reconstruction of a WatchlistResult from a cache row, as done by
`_get_cached_result` after a hit. -/
def rowToResult (row : CacheRow) : WatchlistResult :=
  ⟨row.full_name, row.is_blocked, row.sources, row.confidence,
   row.reasons, row.created_at, row.raw_data⟩

/-- WatchlistValidator._get_cached_result: `SELECT ... FROM
watchlist_cache WHERE name_hash = ? AND expires_at > datetime('now')`.
The expiry comparison is part of the query itself. -/
def getCached (db : List Char → Option CacheRow) (hash : List Char)
    (now : PyDateTime) : Option WatchlistResult :=
  match db hash with
  | some row =>
      if now.abs < row.expires_at.abs then some (rowToResult row) else none
  | none => none

/-- WatchlistValidator._cache_result: computes `expires_at =
datetime.now().replace(hour = datetime.now().hour +
self.cache_duration_hours).isoformat()` and upserts the row; the whole
body is wrapped in `try/except`, so a failure leaves the table
unchanged. -/
def cacheResult (db : List Char → Option CacheRow) (now : PyDateTime)
    (res : WatchlistResult) : List Char → Option CacheRow :=
  match replaceHour now (now.hour + cache_duration_hours) with
  | Except.ok t =>
      fun h =>
        if h = nameHash res.name then
          some ⟨res.name, res.is_blocked, res.sources, res.confidence,
                res.reasons, res.raw_data, now, t⟩
        else db h
  | Except.error _ => db

/-- The freshly initialised result of `validate_name` before the
processing loop (lines 329-337). -/
def initResult (name : String) (now : PyDateTime) : WatchlistResult :=
  ⟨name, false, [], 0, [], now, []⟩

/-- One iteration of the processing loop in `validate_name` (lines
351-362) on the pair `(source_name, source_result)` produced by
`zip(self.sources.keys(), source_results)`.  A truthy dict with
`is_blocked` set flips the verdict, appends the paired key to `sources`,
extends `reasons` and takes the running `max` of confidences; every
non-exception result (including `None`) is recorded in `raw_data` under
the paired key. -/
def stepResult (acc : WatchlistResult)
    (p : String × Option SourceCheckResult) : WatchlistResult :=
  let acc2 :=
    match p.2 with
    | some r =>
        if r.is_blocked then
          { acc with
              is_blocked := true
              sources := acc.sources ++ [p.1]
              reasons := acc.reasons ++ r.reasons
              confidence := max acc.confidence r.confidence }
        else acc
    | none => acc
  { acc2 with raw_data := acc2.raw_data ++ [(p.1, p.2)] }

/-- The `source_results` list returned by `asyncio.gather`: one outcome
per enabled source, in registry iteration order (lines 340-348).  The
source's registry is a `List (String × Bool)` of keys with their
`enabled` flags, in dict insertion order. -/
def taskOutcomes (srcs : List (String × Bool))
    (env : String → String → Option SourceCheckResult) (name : String) :
    List (Option SourceCheckResult) :=
  (srcs.filter fun p => p.2).map fun p => env p.1 name

/-- The cache-miss path of `validate_name` (lines 328-363): build the
initial result, fan out over the enabled sources, then run the
processing loop over `zip(self.sources.keys(), source_results)` - note
the source text zips the results of the *enabled* sources against the
keys of *all* sources.  When no task was created the loop body is
skipped (`if validation_tasks:`). -/
def validateFresh (name : String) (now : PyDateTime)
    (srcs : List (String × Bool))
    (env : String → String → Option SourceCheckResult) : WatchlistResult :=
  let tasks := taskOutcomes srcs env name
  if tasks.isEmpty then initResult name now
  else ((srcs.map fun p => p.1).zip tasks).foldl stepResult
    (initResult name now)

/-- State threaded through engine calls: the cache table, the wall
clock, the source registry snapshot and the source-outcome
environment. -/
structure EngineState where
  db : List Char → Option CacheRow
  now : PyDateTime
  sources : List (String × Bool)
  env : String → String → Option SourceCheckResult

/-- WatchlistValidator.validate_name: cache lookup, on a hit return the
cached result unchanged, on a miss compute the fresh result and attempt
the cache write. -/
def validate_name (name : String) (st : EngineState) :
    WatchlistResult × EngineState :=
  match getCached st.db (nameHash name) st.now with
  | some r => (r, st)
  | none =>
      let res := validateFresh name st.now st.sources st.env
      (res, { st with db := cacheResult st.db st.now res })

/-- WatchlistValidator.validate_batch: `asyncio.gather` over
`validate_name` tasks, output in input order.  The tasks share only the
cache table; the model threads it sequentially, and the theorems below
show the threading is invisible because the cache write is a no-op, so
this fold covers every interleaving of the concurrent tasks. -/
def validate_batch (names : List String) (st : EngineState) :
    List WatchlistResult × EngineState :=
  names.foldl
    (fun acc n =>
      let r := validate_name n acc.2
      (acc.1 ++ [r.1], r.2))
    ([], st)

/-- Truthiness-plus-`is_blocked` test of the processing loop, as a
function of one gathered outcome. -/
def blockedOpt : Option SourceCheckResult → Bool
  | some r => r.is_blocked
  | none => false

/-- Effect of one gathered outcome on the running confidence. -/
def confStep (m : ℚ) : Option SourceCheckResult → ℚ
  | some r => if r.is_blocked then max m r.confidence else m
  | none => m

/-- Confidences of the successfully returned verdicts that reported
blocked, in gather order. -/
def blockingConfidences (srcs : List (String × Bool))
    (env : String → String → Option SourceCheckResult) (name : String) :
    List ℚ :=
  (((taskOutcomes srcs env name).filterMap id).filter
    fun r => r.is_blocked).map fun r => r.confidence

/-- Cache row used to instantiate the cache-lookup theorem. -/
def sampleRow : CacheRow :=
  ⟨"John Smith", true, ["fbi_wanted"], 9/10, ["FBI Most Wanted: x"], [],
   ⟨0, 1, 0⟩, ⟨0, 2, 0⟩⟩

theorem stepResult_is_blocked (acc : WatchlistResult)
    (p : String × Option SourceCheckResult) :
    (stepResult acc p).is_blocked = (acc.is_blocked || blockedOpt p.2) := by
  rcases p with ⟨k, o⟩
  cases o with
  | none => simp [stepResult, blockedOpt]
  | some r => cases hb : r.is_blocked <;> simp [stepResult, blockedOpt, hb]

theorem stepResult_confidence (acc : WatchlistResult)
    (p : String × Option SourceCheckResult) :
    (stepResult acc p).confidence = confStep acc.confidence p.2 := by
  rcases p with ⟨k, o⟩
  cases o with
  | none => simp [stepResult, confStep]
  | some r => cases hb : r.is_blocked <;> simp [stepResult, confStep, hb]

theorem zip_foldl_is_blocked :
    ∀ (tasks : List (Option SourceCheckResult)) (keys : List String)
      (acc : WatchlistResult), tasks.length ≤ keys.length →
      ((keys.zip tasks).foldl stepResult acc).is_blocked
        = (acc.is_blocked || tasks.any blockedOpt) := by
  intro tasks
  induction tasks with
  | nil => intro keys acc _; simp
  | cons t ts ih =>
      intro keys acc h
      cases keys with
      | nil => simp at h
      | cons k ks =>
          simp only [List.zip_cons_cons, List.foldl_cons, List.any_cons]
          rw [ih ks _ (by simpa using h), stepResult_is_blocked]
          cases acc.is_blocked <;> cases blockedOpt t <;> simp

theorem zip_foldl_confidence :
    ∀ (tasks : List (Option SourceCheckResult)) (keys : List String)
      (acc : WatchlistResult), tasks.length ≤ keys.length →
      ((keys.zip tasks).foldl stepResult acc).confidence
        = tasks.foldl confStep acc.confidence := by
  intro tasks
  induction tasks with
  | nil => intro keys acc _; simp
  | cons t ts ih =>
      intro keys acc h
      cases keys with
      | nil => simp at h
      | cons k ks =>
          simp only [List.zip_cons_cons, List.foldl_cons]
          rw [ih ks _ (by simpa using h), stepResult_confidence]

theorem taskOutcomes_length_le (srcs : List (String × Bool))
    (env : String → String → Option SourceCheckResult) (name : String) :
    (taskOutcomes srcs env name).length ≤ (srcs.map fun p => p.1).length := by
  simp only [taskOutcomes, List.length_map]
  exact List.length_filter_le _ _

theorem cacheResult_noop (db : List Char → Option CacheRow)
    (now : PyDateTime) (res : WatchlistResult) :
    cacheResult db now res = db := by
  simp only [cacheResult, replaceHour, cache_duration_hours]
  rw [if_neg (by omega)]

theorem validate_name_state (name : String) (st : EngineState) :
    (validate_name name st).2 = st := by
  unfold validate_name
  cases h : getCached st.db (nameHash name) st.now with
  | some r => rfl
  | none => simp [cacheResult_noop]

theorem validate_batch_go (st : EngineState) :
    ∀ (names : List String) (acc : List WatchlistResult),
      names.foldl
        (fun acc n =>
          let r := validate_name n acc.2
          (acc.1 ++ [r.1], r.2)) (acc, st)
        = (acc ++ names.map (fun n => (validate_name n st).1), st) := by
  intro names
  induction names with
  | nil => intro acc; simp
  | cons n ns ih =>
      intro acc
      simp only [List.foldl_cons, List.map_cons]
      rw [validate_name_state, ih]
      simp

theorem validateFresh_is_blocked (name : String) (now : PyDateTime)
    (srcs : List (String × Bool))
    (env : String → String → Option SourceCheckResult) :
    (validateFresh name now srcs env).is_blocked
      = (taskOutcomes srcs env name).any blockedOpt := by
  simp only [validateFresh]
  by_cases he : (taskOutcomes srcs env name).isEmpty = true
  · rw [if_pos he, List.isEmpty_iff.mp he]
    simp [initResult]
  · rw [if_neg he,
      zip_foldl_is_blocked _ _ _ (taskOutcomes_length_le srcs env name)]
    simp [initResult]

theorem validateFresh_confidence (name : String) (now : PyDateTime)
    (srcs : List (String × Bool))
    (env : String → String → Option SourceCheckResult) :
    (validateFresh name now srcs env).confidence
      = (taskOutcomes srcs env name).foldl confStep 0 := by
  simp only [validateFresh]
  by_cases he : (taskOutcomes srcs env name).isEmpty = true
  · rw [if_pos he, List.isEmpty_iff.mp he]
    simp [initResult]
  · rw [if_neg he,
      zip_foldl_confidence _ _ _ (taskOutcomes_length_le srcs env name)]
    simp [initResult]

theorem foldl_confStep_none :
    ∀ (ts : List (Option SourceCheckResult)), (∀ o ∈ ts, o = none) →
      ∀ m, ts.foldl confStep m = m := by
  intro ts
  induction ts with
  | nil => intro _ m; rfl
  | cons t ts ih =>
      intro h m
      have ht : t = none := h t (by simp)
      rw [List.foldl_cons, ht]
      exact ih (fun o ho => h o (by simp [ho])) m

theorem foldl_confStep_eq_max :
    ∀ (ts : List (Option SourceCheckResult)) (m : ℚ),
      ts.foldl confStep m
        = (((ts.filterMap id).filter fun r => r.is_blocked).map
            fun r => r.confidence).foldl max m := by
  intro ts
  induction ts with
  | nil => intro m; rfl
  | cons t ts ih =>
      intro m
      cases t with
      | none => simpa using ih m
      | some r =>
          cases hb : r.is_blocked
          · simp [List.foldl_cons, confStep, hb, ih]
          · simp [List.foldl_cons, confStep, hb, ih]

/-- C1 (code defect): the processing loop pairs the gathered results -
one per *enabled* source - with the keys of *all* sources
(`zip(self.sources.keys(), source_results)`), so as soon as one source
is disabled the verdicts of later enabled sources are attributed to the
wrong source names.  With `ofac_sdn` disabled and `fbi_wanted` enabled
and blocking, the returned `sources` list is `["ofac_sdn"]` although the
only enabled blocking source is `fbi_wanted`, and `raw_data` records the
verdict under `ofac_sdn` as well; the claim's description of `sources`
and `rawData` therefore fails on this call. -/
theorem C1_zip_misattribution :
    ((validateFresh "John Smith" ⟨0, 0, 0⟩
        [("ofac_sdn", false), ("fbi_wanted", true)]
        (fun s _ =>
          if s = "fbi_wanted" then
            some ⟨true, 9/10, ["FBI Most Wanted: hit"]⟩
          else none)).sources = ["ofac_sdn"])
    ∧ (([("ofac_sdn", false), ("fbi_wanted", true)].filter
          fun p => p.2).map (fun p => p.1) = ["fbi_wanted"])
    ∧ ((validateFresh "John Smith" ⟨0, 0, 0⟩
        [("ofac_sdn", false), ("fbi_wanted", true)]
        (fun s _ =>
          if s = "fbi_wanted" then
            some ⟨true, 9/10, ["FBI Most Wanted: hit"]⟩
          else none)).raw_data.map Prod.fst = ["ofac_sdn"]) := by
  refine ⟨?_, ?_, ?_⟩ <;> rfl

/-- C2 (code defect): `_cache_result` computes the expiry as
`datetime.now().replace(hour = datetime.now().hour + 24)`; since
`hour + 24` is never in `0..23` this raises `ValueError` on every call,
the surrounding `try/except` swallows it, and the cache is never
written.  Hence the cache write is the identity on the table, every
`validate_name` call leaves the engine state unchanged, and a second
call re-runs the fan-out instead of hitting the cache (its result is
equal to the first only by determinism of the aggregation). -/
theorem C2_cache_never_written :
    (∀ (db : List Char → Option CacheRow) (now : PyDateTime)
        (res : WatchlistResult), cacheResult db now res = db)
    ∧ (∀ (name : String) (st : EngineState),
        (validate_name name st).2 = st)
    ∧ ∀ (name : String) (st : EngineState),
        (validate_name name ((validate_name name st).2)).1
          = (validate_name name st).1 := by
  refine ⟨cacheResult_noop, validate_name_state, ?_⟩
  intro name st
  rw [validate_name_state]

/-- C3 (counterexample): one enabled source responds successfully with
a clear verdict of confidence 4/5; the claim says the returned
confidence is then the maximum over successful sources, 4/5, but the
code only ever raises the confidence inside the `is_blocked` branch, so
the call returns confidence 0. -/
theorem C3_counterexample :
    ((validateFresh "John Smith" ⟨0, 0, 0⟩ [("fbi_wanted", true)]
        (fun _ _ => some ⟨false, 4/5, []⟩)).confidence = 0)
    ∧ ((4 : ℚ)/5 ≠ 0) := by
  constructor
  · rfl
  · norm_num

/-- C3 (amended): the confidence of a cache-missing call is the maximum
(with floor 0) of the confidences of the sources that reported blocked;
confidences of successful non-blocking sources are ignored, so when no
source blocks - even if some responded successfully - the confidence is
0. -/
theorem C3_confidence_amended (name : String) (now : PyDateTime)
    (srcs : List (String × Bool))
    (env : String → String → Option SourceCheckResult) :
    (validateFresh name now srcs env).confidence
      = (blockingConfidences srcs env name).foldl max 0 := by
  rw [validateFresh_confidence]
  exact foldl_confStep_eq_max _ 0

/-- C4: the aggregated verdict is blocked exactly when some enabled
source successfully returned a blocking verdict (the zip defect of C1
misattributes names but preserves the set of processed outcomes, so the
disjunction itself is computed correctly); and when every enabled
source errors or times out the call still returns a clear verdict with
confidence 0. -/
theorem C4_is_blocked_iff :
    (∀ (name : String) (now : PyDateTime) (srcs : List (String × Bool))
        (env : String → String → Option SourceCheckResult),
        ((validateFresh name now srcs env).is_blocked = true ↔
          ∃ p ∈ srcs, p.2 = true ∧
            ∃ r, env p.1 name = some r ∧ r.is_blocked = true))
    ∧ ∀ (name : String) (now : PyDateTime) (srcs : List (String × Bool))
        (env : String → String → Option SourceCheckResult),
        (∀ p ∈ srcs, p.2 = true → env p.1 name = none) →
          (validateFresh name now srcs env).is_blocked = false ∧
          (validateFresh name now srcs env).confidence = 0 := by
  constructor
  · intro name now srcs env
    rw [validateFresh_is_blocked]
    simp only [taskOutcomes, List.any_eq_true, List.mem_map,
      List.mem_filter]
    constructor
    · rintro ⟨o, ⟨p, ⟨hp, hen⟩, rfl⟩, hb⟩
      cases ho : env p.1 name with
      | none => rw [ho] at hb; exact absurd hb (by simp [blockedOpt])
      | some r =>
          rw [ho] at hb
          exact ⟨p, hp, hen, r, ho, by simpa [blockedOpt] using hb⟩
    · rintro ⟨p, hp, hen, r, ho, hb⟩
      exact ⟨env p.1 name, ⟨p, ⟨hp, hen⟩, rfl⟩,
        by rw [ho]; simpa [blockedOpt] using hb⟩
  · intro name now srcs env hall
    have htasks : ∀ o ∈ taskOutcomes srcs env name, o = none := by
      intro o ho
      simp only [taskOutcomes, List.mem_map, List.mem_filter] at ho
      obtain ⟨p, ⟨hp, hen⟩, rfl⟩ := ho
      exact hall p hp hen
    constructor
    · rw [validateFresh_is_blocked]
      cases hany : (taskOutcomes srcs env name).any blockedOpt
      · rfl
      · obtain ⟨o, ho, hb⟩ := List.any_eq_true.mp hany
        rw [htasks o ho] at hb
        exact absurd hb (by simp [blockedOpt])
    · rw [validateFresh_confidence]
      exact foldl_confStep_none _ htasks 0

/-- Witness for C4: one enabled source that times out; the verdict is
clear with confidence 0. -/
theorem C4_is_blocked_iff_witness :
    (validateFresh "John Smith" ⟨0, 0, 0⟩ [("fbi_wanted", true)]
        (fun _ _ => none)).is_blocked = false ∧
    (validateFresh "John Smith" ⟨0, 0, 0⟩ [("fbi_wanted", true)]
        (fun _ _ => none)).confidence = 0 :=
  C4_is_blocked_iff.2 "John Smith" ⟨0, 0, 0⟩ [("fbi_wanted", true)]
    (fun _ _ => none) (by intro p _ _; rfl)

/-- C7 (counterexample): validating the empty name raises nothing and
is not special-cased anywhere; the engine normalizes `""` to `""`,
misses the cache, fans out and returns an ordinary screening verdict,
contradicting the claim that an InvalidInput validation error is
surfaced. -/
theorem C7_counterexample :
    (validate_name ""
        ⟨fun _ => none, ⟨0, 0, 0⟩, [("fbi_wanted", true)],
          fun _ _ => none⟩).1
      = ⟨"", false, [], 0, [], ⟨0, 0, 0⟩, [("fbi_wanted", none)]⟩ := by
  rfl

/-- C7 (amended): calling Validate with an empty name does not surface
any validation error; the empty name normalizes to the empty string
(not to a default), and on a cache miss the call proceeds through the
ordinary fan-out and aggregation, returning a normal screening
verdict. -/
theorem C7_empty_name_amended (st : EngineState)
    (h : st.db (nameHash "") = none) :
    (validate_name "" st).1 = validateFresh "" st.now st.sources st.env
    ∧ normalizeName "".data = [] := by
  constructor
  · have hg : getCached st.db (nameHash "") st.now = none := by
      unfold getCached
      rw [h]
    unfold validate_name
    rw [hg]
  · rfl

/-- Witness for C7 (amended) at an engine state with an empty cache. -/
theorem C7_empty_name_witness :
    ((validate_name ""
        ⟨fun _ => none, ⟨0, 1, 0⟩, [("fbi_wanted", true)],
          fun _ _ => none⟩).1
      = validateFresh "" ⟨0, 1, 0⟩ [("fbi_wanted", true)]
          (fun _ _ => none))
    ∧ normalizeName "".data = [] :=
  C7_empty_name_amended
    ⟨fun _ => none, ⟨0, 1, 0⟩, [("fbi_wanted", true)], fun _ _ => none⟩
    rfl

/-- C8: the cache lookup embeds the expiry test in the query itself: it
yields a hit only for a stored record whose `expires_at` is strictly in
the future, and yields a miss both when no record is stored and when
the stored record satisfies `expires_at ≤ now`. -/
theorem C8_cache_get_expiry :
    (∀ (db : List Char → Option CacheRow) (hash : List Char)
        (now : PyDateTime) (r : WatchlistResult),
        getCached db hash now = some r →
          ∃ row, db hash = some row ∧ now.abs < row.expires_at.abs ∧
            r = rowToResult row)
    ∧ (∀ (db : List Char → Option CacheRow) (hash : List Char)
        (now : PyDateTime), db hash = none → getCached db hash now = none)
    ∧ ∀ (db : List Char → Option CacheRow) (hash : List Char)
        (now : PyDateTime) (row : CacheRow), db hash = some row →
        row.expires_at.abs ≤ now.abs → getCached db hash now = none := by
  refine ⟨?_, ?_, ?_⟩
  · intro db hash now r hr
    unfold getCached at hr
    cases hdb : db hash with
    | none => rw [hdb] at hr; exact absurd hr (by simp)
    | some row =>
        simp only [hdb] at hr
        by_cases hlt : now.abs < row.expires_at.abs
        · rw [if_pos hlt] at hr
          exact ⟨row, rfl, hlt, (Option.some_inj.mp hr).symm⟩
        · rw [if_neg hlt] at hr
          exact absurd hr (by simp)
  · intro db hash now h
    unfold getCached
    rw [h]
  · intro db hash now row h hle
    simp only [getCached, h]
    rw [if_neg (by omega)]

/-- C9: the batch entry point returns one result per input name, in
input order, and each entry equals the result of the corresponding
individual `validate_name` call against the same engine state.  (The
concurrent tasks share only the cache table, and the cache write is the
identity, so every interleaving observes the same state.) -/
theorem C9_batch_matches_sequential (names : List String)
    (st : EngineState) :
    (validate_batch names st).1
        = names.map (fun n => (validate_name n st).1)
    ∧ ∀ i : Nat, ((validate_batch names st).1)[i]?
        = (names[i]?).map (fun n => (validate_name n st).1) := by
  have h : validate_batch names st
      = (names.map (fun n => (validate_name n st).1), st) := by
    unfold validate_batch
    simpa using validate_batch_go st names []
  constructor
  · rw [h]
  · intro i
    rw [h]
    exact List.getElem?_map _ _ _

theorem nameMatches_iff (a b : List Char) :
    nameMatches a b = true ↔
      (normalizeName a = normalizeName b
        ∨ 2 ≤ (tokenSet (normalizeName a) ∩ tokenSet (normalizeName b)).card
        ∨ normalizeName a <:+: normalizeName b
        ∨ normalizeName b <:+: normalizeName a) := by
  simp only [nameMatches]
  split_ifs with h1 h2 h3
  · simp [h1]
  · simp [h1, h2]
  · simp [h1, h2, h3]
  · rcases not_or.mp h3 with ⟨h3a, h3b⟩
    simp [h1, h2, h3a, h3b]

/-- C5: the fuzzy matcher returns true exactly when one of the three
rules holds - normalized equality, token-set overlap of at least two
tokens, or substring containment in either direction (the rules are
pure, so first-success-wins ordering coincides with the disjunction);
the spec's example matches via rule 2 and not rule 1; and a name whose
normalized form has at most one token can never satisfy rule 2. -/
theorem C5_matching_rules :
    (∀ a b : List Char, nameMatches a b = true ↔
      (normalizeName a = normalizeName b
        ∨ 2 ≤ (tokenSet (normalizeName a) ∩ tokenSet (normalizeName b)).card
        ∨ normalizeName a <:+: normalizeName b
        ∨ normalizeName b <:+: normalizeName a))
    ∧ (nameMatches "John Smith".data "Smith, John Michael".data = true
        ∧ normalizeName "John Smith".data
            ≠ normalizeName "Smith, John Michael".data
        ∧ 2 ≤ (tokenSet (normalizeName "John Smith".data)
            ∩ tokenSet (normalizeName "Smith, John Michael".data)).card)
    ∧ ∀ a b : List Char, (tokenSet (normalizeName a)).card ≤ 1 →
        ¬ 2 ≤ (tokenSet (normalizeName a) ∩ tokenSet (normalizeName b)).card := by
  refine ⟨nameMatches_iff, ⟨by decide, by decide, by decide⟩, ?_⟩
  intro a b h1 h2
  have hsub : (tokenSet (normalizeName a) ∩ tokenSet (normalizeName b)).card
      ≤ (tokenSet (normalizeName a)).card :=
    Finset.card_le_card (Finset.inter_subset_left)
  omega

/-- Witness for C5: a mononym has a single token and cannot clear the
token-overlap rule against any candidate. -/
theorem C5_matching_rules_witness :
    (tokenSet (normalizeName "Prince".data)).card ≤ 1
    ∧ ¬ 2 ≤ (tokenSet (normalizeName "Prince".data)
        ∩ tokenSet (normalizeName "Prince Rogers Nelson".data)).card :=
  ⟨by decide,
   C5_matching_rules.2.2 "Prince".data "Prince Rogers Nelson".data
     (by decide)⟩

/-- C10: the fuzzy matcher is symmetric: each rule - normalized
equality, token-set intersection size, substring containment in either
direction - is symmetric in the two names. -/
theorem C10_matches_symm (a b : List Char) :
    nameMatches a b = nameMatches b a := by
  have hc : (tokenSet (normalizeName a) ∩ tokenSet (normalizeName b)).card
      = (tokenSet (normalizeName b) ∩ tokenSet (normalizeName a)).card := by
    rw [Finset.inter_comm]
  have hiff : nameMatches a b = true ↔ nameMatches b a = true := by
    rw [nameMatches_iff, nameMatches_iff, hc]
    constructor
    · rintro (h | h | h | h)
      · exact Or.inl h.symm
      · exact Or.inr (Or.inl h)
      · exact Or.inr (Or.inr (Or.inr h))
      · exact Or.inr (Or.inr (Or.inl h))
    · rintro (h | h | h | h)
      · exact Or.inl h.symm
      · exact Or.inr (Or.inl h)
      · exact Or.inr (Or.inr (Or.inr h))
      · exact Or.inr (Or.inr (Or.inl h))
  cases hx : nameMatches a b <;> cases hy : nameMatches b a
  · rfl
  · exact absurd (hiff.mpr hy) (by simp [hx])
  · exact absurd (hiff.mp hx) (by simp [hy])
  · rfl

theorem isAllowed_space : isAllowed ' ' = true := by decide

theorem lowerChar_allowed (c : Char) (h : isAllowed c = true) :
    lowerChar c = c := by
  simp only [isAllowed, isWS, Bool.or_eq_true, decide_eq_true_eq] at h
  unfold lowerChar
  rw [if_neg (by omega)]

theorem mem_of_mem_dropWhile {p : Char → Bool} :
    ∀ {l : List Char} {c : Char}, c ∈ l.dropWhile p → c ∈ l := by
  intro l
  induction l with
  | nil => intro c h; simp at h
  | cons a as ih =>
      intro c h
      rw [List.dropWhile_cons] at h
      by_cases hp : p a = true
      · rw [if_pos hp] at h
        exact List.mem_cons_of_mem a (ih h)
      · rw [if_neg hp] at h
        exact h

theorem mem_pyStrip {l : List Char} {c : Char} (h : c ∈ pyStrip l) :
    c ∈ l := by
  unfold pyStrip at h
  rw [List.mem_reverse] at h
  have h1 := mem_of_mem_dropWhile h
  rw [List.mem_reverse] at h1
  exact mem_of_mem_dropWhile h1

theorem mem_collapseWS :
    ∀ {l : List Char} {c : Char}, c ∈ collapseWS l →
      (c ∈ l ∧ isWS c = false) ∨ c = ' ' := by
  intro l
  induction l with
  | nil => intro c h; simp [collapseWS] at h
  | cons a l' ih =>
      intro c h
      cases l' with
      | nil =>
          by_cases ha : isWS a = true
          · simp [collapseWS, ha] at h
            exact Or.inr h
          · simp [collapseWS, ha] at h
            subst h
            exact Or.inl ⟨List.mem_singleton_self c, by simpa using ha⟩
      | cons b rest =>
          by_cases ha : isWS a = true
          · by_cases hb : isWS b = true
            · rw [show collapseWS (a :: b :: rest)
                  = collapseWS (b :: rest) from by
                    simp [collapseWS, ha, hb]] at h
              rcases ih h with ⟨hm, hw⟩ | hs
              · exact Or.inl ⟨List.mem_cons_of_mem a hm, hw⟩
              · exact Or.inr hs
            · rw [show collapseWS (a :: b :: rest)
                  = ' ' :: collapseWS (b :: rest) from by
                    simp [collapseWS, ha, hb]] at h
              rcases List.mem_cons.mp h with hc | hc
              · exact Or.inr hc
              · rcases ih hc with ⟨hm, hw⟩ | hs
                · exact Or.inl ⟨List.mem_cons_of_mem a hm, hw⟩
                · exact Or.inr hs
          · rw [show collapseWS (a :: b :: rest)
                = a :: collapseWS (b :: rest) from by
                  simp [collapseWS, ha]] at h
            rcases List.mem_cons.mp h with hc | hc
            · subst hc
              exact Or.inl ⟨List.mem_cons_self _ _, by simpa using ha⟩
            · rcases ih hc with ⟨hm, hw⟩ | hs
              · exact Or.inl ⟨List.mem_cons_of_mem a hm, hw⟩
              · exact Or.inr hs

theorem filter_allowed_eq {l : List Char}
    (h : ∀ c ∈ l, isAllowed c = true) : l.filter isAllowed = l :=
  List.filter_eq_self.mpr h

theorem map_lowerChar_eq :
    ∀ {l : List Char}, (∀ c ∈ l, isAllowed c = true) →
      l.map lowerChar = l := by
  intro l
  induction l with
  | nil => intro _; rfl
  | cons a as ih =>
      intro h
      rw [List.map_cons, lowerChar_allowed a (h a (List.mem_cons_self a as)),
        ih (fun c hc => h c (List.mem_cons_of_mem a hc))]

theorem normalizeName_allowed {l : List Char} :
    ∀ c ∈ normalizeName l, isAllowed c = true := by
  intro c hc
  exact List.of_mem_filter hc

theorem normalizeName_of_allowed {m : List Char}
    (h : ∀ c ∈ m, isAllowed c = true) :
    normalizeName m = collapseWS (pyStrip m) := by
  unfold normalizeName
  rw [map_lowerChar_eq (fun c hc => h c (mem_pyStrip hc))]
  apply filter_allowed_eq
  intro c hc
  rcases mem_collapseWS hc with ⟨hm, _⟩ | hs
  · exact h c (mem_pyStrip hm)
  · rw [hs]
    exact isAllowed_space

theorem head?_dropWhile_not {p : Char → Bool} :
    ∀ {l : List Char} {c : Char}, (l.dropWhile p).head? = some c →
      p c = false := by
  intro l
  induction l with
  | nil => intro c h; simp at h
  | cons a as ih =>
      intro c h
      rw [List.dropWhile_cons] at h
      by_cases hp : p a = true
      · rw [if_pos hp] at h
        exact ih h
      · rw [if_neg hp] at h
        rw [List.head?_cons, Option.some_inj] at h
        subst h
        simpa using hp

theorem dropWhile_eq_self_of_head {p : Char → Bool} {l : List Char}
    (h : ∀ c, l.head? = some c → p c = false) : l.dropWhile p = l := by
  cases l with
  | nil => rfl
  | cons a as =>
      rw [List.dropWhile_cons, if_neg (by simp [h a rfl])]

theorem exists_append_dropWhile {p : Char → Bool} :
    ∀ l : List Char, ∃ t, t ++ l.dropWhile p = l := by
  intro l
  induction l with
  | nil => exact ⟨[], rfl⟩
  | cons a as ih =>
      by_cases hp : p a = true
      · obtain ⟨t, ht⟩ := ih
        exact ⟨a :: t,
          by rw [List.dropWhile_cons, if_pos hp, List.cons_append, ht]⟩
      · exact ⟨[], by rw [List.dropWhile_cons, if_neg hp]; rfl⟩

theorem getLast?_cons_of_ne_nil {l : List Char} (a : Char)
    (h : l ≠ []) : (a :: l).getLast? = l.getLast? := by
  cases l with
  | nil => exact absurd rfl h
  | cons b rest => exact List.getLast?_cons_cons

theorem getLast?_append_right {l m : List Char} (h : m ≠ []) :
    (l ++ m).getLast? = m.getLast? := by
  induction l with
  | nil => rfl
  | cons a l ih =>
      rw [List.cons_append,
        getLast?_cons_of_ne_nil a (by simp [h]), ih]

theorem pyStrip_head_not_ws :
    ∀ {l : List Char} {c : Char}, (pyStrip l).head? = some c →
      isWS c = false := by
  intro l c h
  unfold pyStrip at h
  rw [List.head?_reverse] at h
  obtain ⟨t, ht⟩ :=
    exists_append_dropWhile (p := isWS) (l.dropWhile isWS).reverse
  have hY : (l.dropWhile isWS).reverse.dropWhile isWS ≠ [] := by
    intro he
    rw [he] at h
    simp at h
  have h2 : (l.dropWhile isWS).reverse.getLast? = some c := by
    rw [← ht, getLast?_append_right hY]
    exact h
  rw [List.getLast?_reverse] at h2
  exact head?_dropWhile_not h2

theorem pyStrip_getLast_not_ws {l : List Char} {c : Char}
    (h : (pyStrip l).getLast? = some c) : isWS c = false := by
  unfold pyStrip at h
  rw [List.getLast?_reverse] at h
  exact head?_dropWhile_not h

theorem pyStrip_eq_self {l : List Char}
    (h1 : ∀ c, l.head? = some c → isWS c = false)
    (h2 : ∀ c, l.getLast? = some c → isWS c = false) :
    pyStrip l = l := by
  unfold pyStrip
  rw [dropWhile_eq_self_of_head h1]
  rw [dropWhile_eq_self_of_head
    (fun c hc => h2 c (by rwa [List.head?_reverse] at hc))]
  exact List.reverse_reverse l

theorem collapseWS_head_of_not_ws {l : List Char} {c : Char}
    (h : l.head? = some c) (hc : isWS c = false) :
    (collapseWS l).head? = some c := by
  cases l with
  | nil => simp at h
  | cons a l' =>
      rw [List.head?_cons, Option.some_inj] at h
      subst h
      cases l' with
      | nil => simp [collapseWS, hc]
      | cons b rest => simp [collapseWS, hc]

theorem collapseWS_ne_nil : ∀ {l : List Char}, l ≠ [] →
    collapseWS l ≠ [] := by
  intro l
  induction l with
  | nil => intro h; exact absurd rfl h
  | cons a l' ih =>
      intro _
      cases l' with
      | nil =>
          by_cases ha : isWS a = true <;> simp [collapseWS, ha]
      | cons b rest =>
          by_cases ha : isWS a = true
          · by_cases hb : isWS b = true
            · rw [show collapseWS (a :: b :: rest)
                  = collapseWS (b :: rest) from by
                    simp [collapseWS, ha, hb]]
              exact ih (by simp)
            · rw [show collapseWS (a :: b :: rest)
                  = ' ' :: collapseWS (b :: rest) from by
                    simp [collapseWS, ha, hb]]
              simp
          · rw [show collapseWS (a :: b :: rest)
                = a :: collapseWS (b :: rest) from by
                  simp [collapseWS, ha]]
            simp

theorem collapseWS_getLast_not_ws :
    ∀ {l : List Char},
      (∀ c, l.getLast? = some c → isWS c = false) →
      ∀ d, (collapseWS l).getLast? = some d → isWS d = false := by
  intro l
  induction l with
  | nil => intro _ d hd; simp [collapseWS] at hd
  | cons a l' ih =>
      intro h d hd
      cases l' with
      | nil =>
          have ha : isWS a = false := h a rfl
          rw [show collapseWS [a] = [a] from by simp [collapseWS, ha]]
            at hd
          rw [show ([a] : List Char).getLast? = some a from rfl,
            Option.some_inj] at hd
          subst hd
          exact ha
      | cons b rest =>
          have htail : ∀ c, (b :: rest).getLast? = some c →
              isWS c = false := by
            intro c hc
            exact h c (by rw [List.getLast?_cons_cons]; exact hc)
          have hne : collapseWS (b :: rest) ≠ [] :=
            collapseWS_ne_nil (by simp)
          by_cases ha : isWS a = true
          · by_cases hb : isWS b = true
            · rw [show collapseWS (a :: b :: rest)
                  = collapseWS (b :: rest) from by
                    simp [collapseWS, ha, hb]] at hd
              exact ih htail d hd
            · rw [show collapseWS (a :: b :: rest)
                  = ' ' :: collapseWS (b :: rest) from by
                    simp [collapseWS, ha, hb],
                getLast?_cons_of_ne_nil ' ' hne] at hd
              exact ih htail d hd
          · rw [show collapseWS (a :: b :: rest)
                = a :: collapseWS (b :: rest) from by
                  simp [collapseWS, ha],
              getLast?_cons_of_ne_nil a hne] at hd
            exact ih htail d hd

theorem collapseWS_wsOnlySpace {l : List Char} :
    ∀ c ∈ collapseWS l, isWS c = true → c = ' ' := by
  intro c hc hw
  rcases mem_collapseWS hc with ⟨_, hf⟩ | he
  · rw [hw] at hf
    exact absurd hf (by simp)
  · exact he

theorem collapseWS_noWSrun (l : List Char) :
    List.Chain' (fun a b => ¬(isWS a = true ∧ isWS b = true))
      (collapseWS l) := by
  induction l with
  | nil => simp [collapseWS]
  | cons a l' ih =>
      cases l' with
      | nil =>
          by_cases ha : isWS a = true <;>
            simp [collapseWS, ha, List.chain'_singleton]
      | cons b rest =>
          by_cases ha : isWS a = true
          · by_cases hb : isWS b = true
            · rw [show collapseWS (a :: b :: rest)
                  = collapseWS (b :: rest) from by
                    simp [collapseWS, ha, hb]]
              exact ih
            · rw [show collapseWS (a :: b :: rest)
                  = ' ' :: collapseWS (b :: rest) from by
                    simp [collapseWS, ha, hb]]
              apply List.chain'_cons'.mpr
              refine ⟨?_, ih⟩
              intro y hy
              have hhead : (collapseWS (b :: rest)).head? = some b :=
                collapseWS_head_of_not_ws rfl (by simpa using hb)
              rw [hhead, Option.mem_def, Option.some_inj] at hy
              subst hy
              intro hcon
              exact absurd hcon.2 (by simpa using hb)
          · rw [show collapseWS (a :: b :: rest)
                = a :: collapseWS (b :: rest) from by
                  simp [collapseWS, ha]]
            apply List.chain'_cons'.mpr
            refine ⟨?_, ih⟩
            intro y _
            intro hcon
            exact absurd hcon.1 ha

theorem collapseWS_eq_self :
    ∀ {l : List Char}, (∀ c ∈ l, isWS c = true → c = ' ') →
      List.Chain' (fun a b => ¬(isWS a = true ∧ isWS b = true)) l →
      collapseWS l = l := by
  intro l
  induction l with
  | nil => intro _ _; rfl
  | cons a l' ih =>
      intro hsp hch
      cases l' with
      | nil =>
          by_cases ha : isWS a = true
          · have haa : a = ' ' := hsp a (by simp) ha
            simp [collapseWS, ha, haa]
          · simp [collapseWS, ha]
      | cons b rest =>
          have hrel := (List.chain'_cons.mp hch).1
          have hch2 := (List.chain'_cons.mp hch).2
          have hsp2 : ∀ c ∈ b :: rest, isWS c = true → c = ' ' :=
            fun c hc => hsp c (List.mem_cons_of_mem a hc)
          by_cases ha : isWS a = true
          · have hb : isWS b = false := by
              by_cases hbb : isWS b = true
              · exact absurd ⟨ha, hbb⟩ hrel
              · simpa using hbb
            have haa : a = ' ' := hsp a (by simp) ha
            rw [show collapseWS (a :: b :: rest)
                = ' ' :: collapseWS (b :: rest) from by
                  simp [collapseWS, ha, hb],
              ih hsp2 hch2, haa]
          · rw [show collapseWS (a :: b :: rest)
                = a :: collapseWS (b :: rest) from by
                  simp [collapseWS, ha],
              ih hsp2 hch2]

theorem collapseWS_idem (l : List Char) :
    collapseWS (collapseWS l) = collapseWS l :=
  collapseWS_eq_self collapseWS_wsOnlySpace (collapseWS_noWSrun l)

theorem pyStrip_collapseWS_pyStrip (l : List Char) :
    pyStrip (collapseWS (pyStrip l)) = collapseWS (pyStrip l) := by
  apply pyStrip_eq_self
  · intro c hc
    cases hs : (pyStrip l).head? with
    | none =>
        rw [List.head?_eq_none_iff.mp hs] at hc
        simp [collapseWS] at hc
    | some d =>
        have hd : isWS d = false := pyStrip_head_not_ws hs
        rw [collapseWS_head_of_not_ws hs hd, Option.some_inj] at hc
        subst hc
        exact hd
  · exact collapseWS_getLast_not_ws
      (fun d hd => pyStrip_getLast_not_ws hd)

theorem normalizeName_normalizeName_fix (l : List Char) :
    normalizeName (normalizeName (normalizeName l))
      = normalizeName (normalizeName l) := by
  have e1 : normalizeName (normalizeName l)
      = collapseWS (pyStrip (normalizeName l)) :=
    normalizeName_of_allowed normalizeName_allowed
  have e2 : normalizeName (normalizeName (normalizeName l))
      = collapseWS (pyStrip (normalizeName (normalizeName l))) :=
    normalizeName_of_allowed normalizeName_allowed
  rw [e2, e1, pyStrip_collapseWS_pyStrip, collapseWS_idem]

/-- C6 (counterexample): normalization is not idempotent.  On
`"a . b"` the character strip removes the dot after whitespace was
collapsed, leaving the double space `"a  b"`; a second application
collapses it to `"a b"`. -/
theorem C6_counterexample :
    normalizeName (normalizeName "a . b".data)
      ≠ normalizeName "a . b".data := by
  decide

/-- C6 (amended): normalization is not idempotent, because stripping a
disallowed character can merge two whitespace runs (or expose a leading
or trailing space) that only a further pass collapses; it stabilises
after one extra application: for every input,
`Normalize (Normalize n) = Normalize (Normalize (Normalize n))`. -/
theorem C6_normalize_amended (l : List Char) :
    normalizeName (normalizeName l)
      = normalizeName (normalizeName (normalizeName l)) :=
  (normalizeName_normalizeName_fix l).symm

/-- Witness for C8: a present unexpired row is a hit with a strictly
future expiry, an absent row is a miss, and the same row once its
expiry has passed is a miss. -/
theorem C8_cache_get_expiry_witness :
    (∃ row, (fun (_ : List Char) => some sampleRow) ['a'] = some row
        ∧ (PyDateTime.abs ⟨0, 1, 30⟩) < row.expires_at.abs
        ∧ rowToResult sampleRow = rowToResult row)
    ∧ getCached (fun _ => none) ['a'] ⟨0, 0, 0⟩ = none
    ∧ getCached (fun _ => some sampleRow) ['a'] ⟨0, 2, 0⟩ = none :=
  ⟨C8_cache_get_expiry.1 (fun _ => some sampleRow) ['a'] ⟨0, 1, 30⟩
      (rowToResult sampleRow) rfl,
   C8_cache_get_expiry.2.1 (fun _ => none) ['a'] ⟨0, 0, 0⟩ rfl,
   C8_cache_get_expiry.2.2 (fun _ => some sampleRow) ['a'] ⟨0, 2, 0⟩
      sampleRow rfl (by decide)⟩
